import Mathlib

/-!
Verification of the agent-loop core (`agent_loop.py`) against its
natural-language specification.

The Python module works on dictionaries; here messages are a tagged variant
(the six variants of the spec's data model), JSON values are a small inductive
type, and the provider wire format is a block inductive.  Optional dictionary
keys (`ts`, `signature`) are `Option`s.  The nondeterministic completion order
of the thread-pool dispatcher is made explicit as a permutation parameter, and
`now()` is threaded as an explicit timestamp argument (a clock function for
the loop).
-/

mutual
/-- JSON values, the structured inputs/outputs exchanged with tools.
Arrays and objects use mutually defined list types so that equality and
serialization are plain structural recursions. -/
inductive JsonVal where
  | jnull : JsonVal
  | jbool : Bool → JsonVal
  | jnum : Int → JsonVal
  | jstr : String → JsonVal
  | jarr : JsonArr → JsonVal
  | jobj : JsonObj → JsonVal
deriving DecidableEq

/-- A list of JSON values (a JSON array). -/
inductive JsonArr where
  | anil : JsonArr
  | acons : JsonVal → JsonArr → JsonArr
deriving DecidableEq

/-- A list of key/value pairs (a JSON object). -/
inductive JsonObj where
  | onil : JsonObj
  | ocons : String → JsonVal → JsonObj → JsonObj
deriving DecidableEq
end

/-- A tool output: either plain text or a structured value
(`output if isinstance(output, str) else json.dumps(output)`). -/
inductive OutVal where
  | ostr : String → OutVal
  | oval : JsonVal → OutVal
deriving DecidableEq

/-- A generic conversation message (one Python dict in `session["messages"]`).
`ts` and `signature` model the optional dictionary keys. -/
inductive Message where
  | system : (content : String) → (ts : Option String) → Message
  | user : (content : String) → (ts : Option String) → Message
  | assistant : (content : String) → (ts : Option String) → Message
  | thinking : (content : String) → (signature : Option String) → (ts : Option String) → Message
  | tool_call : (id : String) → (name : String) → (input : JsonVal) → (ts : Option String) → Message
  | tool_result : (id : String) → (output : OutVal) → (ts : Option String) → Message
deriving DecidableEq

/-- The `ts` key of a message, when present. -/
def Message.ts : Message → Option String
  | .system _ t => t
  | .user _ t => t
  | .assistant _ t => t
  | .thinking _ _ t => t
  | .tool_call _ _ _ t => t
  | .tool_result _ _ t => t

def Message.isToolCall : Message → Bool
  | .tool_call _ _ _ _ => true
  | _ => false

def Message.isAssistant : Message → Bool
  | .assistant _ _ => true
  | _ => false

def Message.isSystem : Message → Bool
  | .system _ _ => true
  | _ => false

/-- An apostrophe character as a string (used inside error texts). -/
def squote : String := String.singleton (Char.ofNat 39)

/-- Quoting of a JSON string literal. -/
def jstr_quote (s : String) : String :=
  "\"" ++ String.join (s.data.map (fun c =>
    if c = '"' then "\\\""
    else if c = '\\' then "\\\\"
    else if c = '\n' then "\\n"
    else if c = '\t' then "\\t"
    else if c = '\r' then "\\r"
    else String.singleton c)) ++ "\""

mutual
/-- Serialization of a JSON value to text, mirroring `json.dumps` with its
default separators (exotic character escapes inside strings are elided; no
claim depends on them). -/
def json_dumps : JsonVal → String
  | .jnull => "null"
  | .jbool true => "true"
  | .jbool false => "false"
  | .jnum n => toString n
  | .jstr s => jstr_quote s
  | .jarr xs => "[" ++ String.intercalate ", " (dumps_arr xs) ++ "]"
  | .jobj fs => "\x7b" ++ String.intercalate ", " (dumps_obj fs) ++ "\x7d"

def dumps_arr : JsonArr → List String
  | .anil => []
  | .acons v vs => json_dumps v :: dumps_arr vs

def dumps_obj : JsonObj → List String
  | .onil => []
  | .ocons k v fs => (jstr_quote k ++ ": " ++ json_dumps v) :: dumps_obj fs
end

/-- Serialization used for `tool_result` contents:
`output if isinstance(output, str) else json.dumps(output)`. -/
def OutVal.serialize : OutVal → String
  | .ostr s => s
  | .oval v => json_dumps v

/-- One content block of the provider wire format. -/
inductive ApiBlock where
  | thinking : (thinking : String) → (signature : Option String) → ApiBlock
  | text : (text : String) → ApiBlock
  | tool_use : (id : String) → (name : String) → (input : JsonVal) → ApiBlock
  | tool_result : (tool_use_id : String) → (content : String) → ApiBlock
deriving DecidableEq

/-- One outbound API message: either a plain user turn, an assistant turn of
blocks, or a user-role turn of tool-result blocks. -/
inductive ApiMessage where
  | userText : (content : String) → ApiMessage
  | assistantTurn : (blocks : List ApiBlock) → ApiMessage
  | userBlocks : (blocks : List ApiBlock) → ApiMessage
deriving DecidableEq

/-- `flush_assistant`: emit the buffered assistant blocks as one turn, if any. -/
def flush_assistant (ab : List ApiBlock) : List ApiMessage :=
  if ab.isEmpty then [] else [ApiMessage.assistantTurn ab]

/-- `flush_tool_results`: emit the buffered tool-result blocks as one turn, if any. -/
def flush_tool_results (trb : List ApiBlock) : List ApiMessage :=
  if trb.isEmpty then [] else [ApiMessage.userBlocks trb]

/-- The body of `to_api_messages`: walks the messages carrying the two block
buffers (`assistant_blocks`, `tool_result_blocks`), emitting flushed turns in
output order exactly as the Python loop appends them. -/
def to_api_go : List Message → List ApiBlock → List ApiBlock → List ApiMessage
  | [], ab, trb => flush_assistant ab ++ flush_tool_results trb
  | .system _ _ :: rest, ab, trb => to_api_go rest ab trb
  | .user c _ :: rest, ab, trb =>
      flush_assistant ab ++ flush_tool_results trb ++
        (ApiMessage.userText c :: to_api_go rest [] [])
  | .assistant c _ :: rest, ab, trb =>
      flush_tool_results trb ++ to_api_go rest (ab ++ [ApiBlock.text c]) []
  | .thinking c sig _ :: rest, ab, trb =>
      flush_tool_results trb ++ to_api_go rest (ab ++ [ApiBlock.thinking c sig]) []
  | .tool_call id name input _ :: rest, ab, trb =>
      flush_tool_results trb ++ to_api_go rest (ab ++ [ApiBlock.tool_use id name input]) []
  | .tool_result id output _ :: rest, ab, trb =>
      flush_assistant ab ++
        to_api_go rest [] (trb ++ [ApiBlock.tool_result id output.serialize])

/-- `to_api_messages`: convert generic messages to the provider format. -/
def to_api_messages (messages : List Message) : List ApiMessage :=
  to_api_go messages [] []

/-- `parse_response`: one block of a provider reply becomes zero or one
generic message.  `ts` is the value of `now()` taken once per call.
Note the `tool_call` message is built without a `ts` key, and an empty text
block is dropped (`if block["text"]:`). -/
def parse_block (ts : String) : ApiBlock → List Message
  | .thinking th sig => [Message.thinking th sig (some ts)]
  | .text t => if t = "" then [] else [Message.assistant t (some ts)]
  | .tool_use id name input => [Message.tool_call id name input none]
  | .tool_result _ _ => []

/-- `parse_response`: parse a provider reply (its content block list) into
generic messages. -/
def parse_response : List ApiBlock → String → List Message
  | [], _ => []
  | b :: rest, ts => parse_block ts b ++ parse_response rest ts

/-- A tool-call record as read by the dispatcher (`tc["id"]`, `tc["name"]`,
`tc["input"]`). -/
structure TCall where
  id : String
  name : String
  input : JsonVal
deriving DecidableEq

/-- A tool handler: the structured input either returns an output or raises a
fault (modelled by `Except`, the fault carrying `str(e)`). -/
def Handler : Type := JsonVal → Except String OutVal

/-- `tool_handlers.get`: the name-to-handler mapping. -/
def Handlers : Type := String → Option Handler

/-- The synthetic result for an unregistered tool name:
`"Error: unknown tool '<name>'"`. -/
def unknown_tool_result (tc : TCall) : Message :=
  Message.tool_result tc.id
    (OutVal.ostr ("Error: unknown tool " ++ squote ++ tc.name ++ squote)) none

/-- The result of running one submitted handler: its return value verbatim on
success, `"Error: <message>"` when the handler raises. -/
def run_handler (tc : TCall) (h : Handler) : Message :=
  match h tc.input with
  | .ok output => Message.tool_result tc.id output none
  | .error e => Message.tool_result tc.id (OutVal.ostr ("Error: " ++ e)) none

/-- The calls that get submitted to the pool, paired with their handlers
(those whose name resolves in `tool_handlers`). -/
def submitted_calls (tool_calls : List TCall) (handlers : Handlers) :
    List (TCall × Handler) :=
  tool_calls.filterMap (fun tc => (handlers tc.name).map (fun h => (tc, h)))

/-- Reorder a list by a completion schedule: `perm` lists the indices in the
order `as_completed` yields the corresponding futures. -/
def by_schedule (perm : List Nat) (l : List (TCall × Handler)) :
    List (TCall × Handler) :=
  perm.filterMap (fun i => l[i]?)

/-- A schedule is valid when it enumerates every submitted future exactly
once, in some order. -/
def ValidSchedule (perm : List Nat) (n : Nat) : Prop :=
  perm.Perm (List.range n)

instance (perm : List Nat) (n : Nat) : Decidable (ValidSchedule perm n) :=
  inferInstanceAs (Decidable (perm.Perm (List.range n)))

/-- `execute_tool_calls`: the thread-pool dispatcher.  The submission loop
appends one synthetic result per unknown tool name, in input order; then the
`as_completed` loop appends one result per submitted call, in completion
order.  `perm` makes the nondeterministic completion order explicit. -/
def execute_tool_calls (tool_calls : List TCall) (handlers : Handlers)
    (perm : List Nat) : List Message :=
  (tool_calls.filter (fun tc => (handlers tc.name).isNone)).map unknown_tool_result
    ++ (by_schedule perm (submitted_calls tool_calls handlers)).map
        (fun p => run_handler p.1 p.2)

/-- Modelled from the spec: the sequential dispatch mode.  The repository's
test suite (`test/test_agent_loop.py`, `test_sequential_mode`) exercises a
`parallel=False` switch of the `simple_agent_loop` module, which is not among
the sources; per the spec it "processes calls one at a time in input order"
with the same per-call contract as the concurrent mode. -/
def execute_tool_calls_sequential (tool_calls : List TCall)
    (handlers : Handlers) : List Message :=
  tool_calls.map (fun tc =>
    match handlers tc.name with
    | none => unknown_tool_result tc
    | some h => run_handler tc h)

/-- The outputs a result list associates with a given call id (used to state
id-to-output mapping facts). -/
def outputs_for (results : List Message) (id : String) : List OutVal :=
  results.filterMap (fun m =>
    match m with
    | .tool_result i out _ => if i = id then some out else none
    | _ => none)

/-- `content.replace("\n", " ")`. -/
def replace_nl (s : String) : String :=
  String.mk (s.data.map (fun c => if c = '\n' then ' ' else c))

/-- `content.strip()`: drop leading and trailing whitespace. -/
def strip (s : String) : String :=
  String.mk (((s.data.dropWhile Char.isWhitespace).reverse.dropWhile
    Char.isWhitespace).reverse)

/-- The `label` of a log line: the role or, for typed entries, the type. -/
def log_label : Message → String
  | .system _ _ => "system"
  | .user _ _ => "user"
  | .assistant _ _ => "assistant"
  | .thinking _ _ _ => "thinking"
  | .tool_call _ _ _ _ => "tool_call"
  | .tool_result _ _ _ => "tool_result"

/-- The raw content extracted for a log line, per message variant. -/
def log_content : Message → String
  | .system c _ => c
  | .user c _ => c
  | .assistant c _ => c
  | .thinking c _ _ => c
  | .tool_call _ name input _ => name ++ "(" ++ json_dumps input ++ ")"
  | .tool_result _ output _ => output.serialize

/-- `agent = name or "agent"` (Python `or`: an empty name is falsy). -/
def log_agent : Option String → String
  | none => "agent"
  | some n => if n = "" then "agent" else n

/-- The untruncated log line
`f"{ts} {agent} {label} {content}"`, with `ts = message.get("ts", now())` and
the content newline-flattened and stripped. -/
def render_line (m : Message) (name : Option String) (nowTs : String) : String :=
  m.ts.getD nowTs ++ " " ++ log_agent name ++ " " ++ log_label m ++ " " ++
    strip (replace_nl (log_content m))

/-- `log`, as the pure line it prints: hard truncation to 120 characters,
the last three retained characters replaced by `"..."`. -/
def log_line (m : Message) (name : Option String) (nowTs : String) : String :=
  let line := render_line m name nowTs
  if line.length > 120 then String.mk (line.data.take 117) ++ "..." else line

/-- The view of a message as a dispatcher tool-call record
(`m.get("type") == "tool_call"`). -/
def Message.asToolCall : Message → Option TCall
  | .tool_call id name input _ => some ⟨id, name, input⟩
  | _ => none

/-- The tool calls among a parsed reply. -/
def tool_calls_of (messages : List Message) : List TCall :=
  messages.filterMap Message.asToolCall

/-- The content of a system message. -/
def system_content : Message → Option String
  | .system c _ => some c
  | _ => none

/-- The outbound provider request: optional top-level system text plus the
translated turn list. -/
structure ApiSession where
  system : Option String
  messages : List ApiMessage
deriving DecidableEq

/-- Lines 206-209 of `agent_loop.py`: collect the system prompts, translate
the log, and set the `system` field to the first system prompt if any. -/
def build_api_session (messages : List Message) : ApiSession :=
  { system := (messages.filterMap system_content).head?
    messages := to_api_messages messages }

/-- The model capability, abstracted: from an outbound request to the reply's
content block list. -/
def Invoke : Type := ApiSession → List ApiBlock

/-- Loop counters: `max_iterations is None or iteration < max_iterations`. -/
def loop_continues (maxIter : Option Nat) (iteration : Nat) : Bool :=
  match maxIter with
  | none => true
  | some n => iteration < n

/-- The embedded results of `tool_call` dispatch as they are appended to the
session. -/
def dispatch (reply : List Message) (handlers : Handlers) (perm : List Nat) :
    List Message :=
  execute_tool_calls (tool_calls_of reply) handlers perm

/-- Result of a run of `agent_loop`: the final message log, the number of
model invocations performed, and whether the Python loop terminated within
the modelling fuel (`halted = false` only when fuel ran out on an uncapped
run). -/
structure LoopResult where
  session : List Message
  invocations : Nat
  halted : Bool
deriving DecidableEq

/-- The body of `agent_loop`: one recursive step per `while` iteration.
`clock i` is the value of `now()` during iteration `i`; `perms i` is the
completion schedule of that iteration's dispatch.  `fuel` only bounds the
modelled recursion; with a cap `some n`, `fuel ≥ n - iteration` makes it
irrelevant. -/
def agent_loop_aux (invoke : Invoke) (handlers : Handlers)
    (clock : Nat → String) (perms : Nat → List Nat) (maxIter : Option Nat) :
    Nat → Nat → List Message → LoopResult
  | iteration, 0, msgs =>
      if loop_continues maxIter iteration then ⟨msgs, 0, false⟩
      else ⟨msgs, 0, true⟩
  | iteration, fuel + 1, msgs =>
    if loop_continues maxIter iteration then
      let reply := parse_response (invoke (build_api_session msgs)) (clock iteration)
      let msgs1 := msgs ++ reply
      if (tool_calls_of reply).isEmpty then ⟨msgs1, 1, true⟩
      else
        let msgs2 := msgs1 ++ dispatch reply handlers (perms iteration)
        let r := agent_loop_aux invoke handlers clock perms maxIter (iteration + 1) fuel msgs2
        ⟨r.session, r.invocations + 1, r.halted⟩
    else ⟨msgs, 0, true⟩

/-- `agent_loop`: drive iterations from iteration counter 0. -/
def agent_loop (invoke : Invoke) (handlers : Handlers) (clock : Nat → String)
    (perms : Nat → List Nat) (maxIter : Option Nat) (fuel : Nat)
    (msgs : List Message) : LoopResult :=
  agent_loop_aux invoke handlers clock perms maxIter 0 fuel msgs

/-- One full iteration's effect on the session: append the parsed reply and
the dispatched results. -/
def loop_step (invoke : Invoke) (handlers : Handlers) (clock : Nat → String)
    (perms : Nat → List Nat) (iteration : Nat) (msgs : List Message) :
    List Message :=
  let reply := parse_response (invoke (build_api_session msgs)) (clock iteration)
  (msgs ++ reply) ++ dispatch reply handlers (perms iteration)

/-- The session at the start of iteration `it + k`, had the loop taken `k`
full iterations from state `msgs` at iteration `it`. -/
def session_at (invoke : Invoke) (handlers : Handlers) (clock : Nat → String)
    (perms : Nat → List Nat) : Nat → List Message → Nat → List Message
  | _, msgs, 0 => msgs
  | it, msgs, k + 1 =>
      session_at invoke handlers clock perms (it + 1)
        (loop_step invoke handlers clock perms it msgs) k

/-- The parsed reply the model produces in iteration `it + k` of that run. -/
def reply_at (invoke : Invoke) (handlers : Handlers) (clock : Nat → String)
    (perms : Nat → List Nat) (it : Nat) (msgs : List Message) (k : Nat) :
    List Message :=
  parse_response
    (invoke (build_api_session (session_at invoke handlers clock perms it msgs k)))
    (clock (it + k))

/-! ### A store model for `fork_session`

`fork_session(session) = copy.deepcopy(session)` is about Python object
identity, so sessions and messages are modelled in an explicit store: message
cells live in `msgs` (a message address is an index), session cells live in
`sessions` (each a list of message addresses).  `copy.deepcopy` allocates a
fresh session cell whose addresses point at freshly allocated copies of every
message; a mutation writes through an address. -/

/-- The store: session cells and message cells, addressed by index. -/
structure Store where
  sessions : List (List Nat)
  msgs : List Message
deriving DecidableEq

/-- A default message used to read out-of-range addresses (never reached on
valid stores). -/
def defaultMsg : Message := Message.user "" none

/-- The message addresses of a session. -/
def Store.addrs (st : Store) (s : Nat) : List Nat :=
  st.sessions.getD s []

/-- The message sequence a session denotes: its cells, dereferenced. -/
def Store.view (st : Store) (s : Nat) : List Message :=
  (st.addrs s).map (fun a => st.msgs.getD a defaultMsg)

/-- `extend_session` / `session["messages"].append(message)`: allocate a cell
for the new message and append its address to the session. -/
def extend_session (st : Store) (s : Nat) (m : Message) : Store :=
  { sessions := st.sessions.set s (st.addrs s ++ [st.msgs.length])
    msgs := st.msgs ++ [m] }

/-- In-place mutation of the `i`-th message of a session (writing through the
shared cell; out-of-range positions are a no-op). -/
def mutate_message (st : Store) (s : Nat) (i : Nat) (m : Message) : Store :=
  match (st.addrs s)[i]? with
  | some a => { sessions := st.sessions, msgs := st.msgs.set a m }
  | none => st

/-- `fork_session` (`copy.deepcopy`): allocate a fresh session cell whose
addresses point at fresh copies of every message cell. -/
def fork_session (st : Store) (s : Nat) : Store × Nat :=
  let addrs := st.addrs s
  let base := st.msgs.length
  ({ sessions := st.sessions ++ [(List.range addrs.length).map (fun i => i + base)]
     msgs := st.msgs ++ addrs.map (fun a => st.msgs.getD a defaultMsg) },
   st.sessions.length)

/-- A well-formed session reference: the cell exists and its addresses are
in range. -/
def ValidSession (st : Store) (s : Nat) : Prop :=
  s < st.sessions.length ∧ ∀ a ∈ st.addrs s, a < st.msgs.length

instance (st : Store) (s : Nat) : Decidable (ValidSession st s) :=
  inferInstanceAs
    (Decidable (s < st.sessions.length ∧ ∀ a ∈ st.addrs s, a < st.msgs.length))

/-- Two sessions share no mutable state: distinct session cells, in-range
address lists, and disjoint message cells. -/
def Separated (st : Store) (s f : Nat) : Prop :=
  s ≠ f ∧ s < st.sessions.length ∧ f < st.sessions.length ∧
    (∀ a ∈ st.addrs s, a < st.msgs.length) ∧
    (∀ a ∈ st.addrs f, a < st.msgs.length) ∧
    ∀ a ∈ st.addrs s, a ∉ st.addrs f

/-- A subsequent operation on a session: an append or an in-place message
mutation. -/
inductive SessionOp where
  | extend : Message → SessionOp
  | mutate : Nat → Message → SessionOp
deriving DecidableEq

/-- Apply one operation to one session. -/
def apply_op (st : Store) (s : Nat) : SessionOp → Store
  | .extend m => extend_session st s m
  | .mutate i m => mutate_message st s i m

/-- Apply a sequence of operations to one session. -/
def apply_ops (st : Store) (s : Nat) : List SessionOp → Store
  | [] => st
  | op :: ops => apply_ops (apply_op st s op) s ops

/-! ### The specification-side grouping of `to_api_messages` (claim C5) -/

/-- The coalescing class of a message: 0 for the model-turn kinds
(`thinking`/`assistant`/`tool_call`), 1 for `tool_result`, 2 for plain
`user`, 3 for `system`. -/
def coalesce_class : Message → Nat
  | .thinking _ _ _ => 0
  | .assistant _ _ => 0
  | .tool_call _ _ _ _ => 0
  | .tool_result _ _ _ => 1
  | .user _ _ => 2
  | .system _ _ => 3

/-- Classes that coalesce with an adjacent equal class (model-turn kinds and
tool results; a `user` entry is always its own turn). -/
def groupable (k : Nat) : Bool := k = 0 || k = 1

/-- Split a message sequence into maximal runs of adjacent groupable
equal-class messages (non-groupable messages form singleton runs). -/
def chunks : List Message → List (Nat × List Message)
  | [] => []
  | m :: rest =>
    match chunks rest with
    | (k, run) :: more =>
        if coalesce_class m = k ∧ groupable k then
          (k, m :: run) :: more
        else
          (coalesce_class m, [m]) :: (k, run) :: more
    | [] => [(coalesce_class m, [m])]

/-- The sub-block a model-turn message projects to. -/
def assistant_block : Message → ApiBlock
  | .thinking c sig _ => ApiBlock.thinking c sig
  | .tool_call id name input _ => ApiBlock.tool_use id name input
  | m => ApiBlock.text (log_content m)

/-- The sub-block a `tool_result` message projects to. -/
def tool_result_block : Message → ApiBlock
  | .tool_result id output _ => ApiBlock.tool_result id output.serialize
  | m => ApiBlock.text (log_content m)

/-- The outbound turns one run yields per the claim: a model-turn run becomes
one assistant turn, a tool-result run one user-role block turn, each user
entry its own user turn, and a system entry nothing. -/
def chunk_turns : Nat × List Message → List ApiMessage
  | (0, run) => [ApiMessage.assistantTurn (run.map assistant_block)]
  | (1, run) => [ApiMessage.userBlocks (run.map tool_result_block)]
  | (2, run) => run.map (fun m => ApiMessage.userText (log_content m))
  | _ => []

/-- The claim's description of the outbound translation: group maximal runs
of consecutive entries and project each run to its turn(s). -/
def group_spec (messages : List Message) : List ApiMessage :=
  (chunks messages).flatMap chunk_turns

/-! ### Round-trip of a model turn (claim C3) -/

/-- The block list `to_api_messages` puts into the single assistant turn a
model turn translates to. -/
def turn_blocks (turn : List Message) : List ApiBlock :=
  match to_api_messages turn with
  | [ApiMessage.assistantTurn bs] => bs
  | _ => []

/-- Outbound-then-inbound translation of one model turn. -/
def round_trip (turn : List Message) (ts : String) : List Message :=
  parse_response (turn_blocks turn) ts

/-- Erase the timestamp of a message (the claim compares text, thinking
content and signatures, not timestamps). -/
def strip_ts : Message → Message
  | .system c _ => .system c none
  | .user c _ => .user c none
  | .assistant c _ => .assistant c none
  | .thinking c sig _ => .thinking c sig none
  | .tool_call id name input _ => .tool_call id name input none
  | .tool_result id out _ => .tool_result id out none

/-- The timestamps a freshly parsed copy of a model-turn message carries:
the parse-time stamp on thinking and assistant messages, none on tool
calls. -/
def reparse_ts (ts : String) : Message → Message
  | .thinking c sig _ => .thinking c sig (some ts)
  | .assistant c _ => .assistant c (some ts)
  | .tool_call id name input _ => .tool_call id name input none
  | m => m
/-- The per-call contract of the dispatcher, applied in input order: the
sequential mode is exactly its map. -/
def resolve_call (handlers : Handlers) (tc : TCall) : Message :=
  match handlers tc.name with
  | none => unknown_tool_result tc
  | some h => run_handler tc h

/-- The output `resolve_call` assigns to a call. -/
def resolve_output (handlers : Handlers) (tc : TCall) : OutVal :=
  match handlers tc.name with
  | none => OutVal.ostr ("Error: unknown tool " ++ squote ++ tc.name ++ squote)
  | some h =>
      match h tc.input with
      | .ok output => output
      | .error e => OutVal.ostr ("Error: " ++ e)

/-- Remove every system entry after the first one (used to state that later
system entries are invisible to the model). -/
def drop_extra_systems : Bool → List Message → List Message
  | _, [] => []
  | seen, m :: rest =>
      if m.isSystem then
        if seen then drop_extra_systems true rest
        else m :: drop_extra_systems true rest
      else m :: drop_extra_systems seen rest

/-- A message list with every system entry after the first removed. -/
def keep_first_system (messages : List Message) : List Message :=
  drop_extra_systems false messages

/-! ### Concrete fixtures used by the witness theorems -/

/-- A concrete batch for the dispatcher equivalence claim. -/
def c1tcs : List TCall :=
  [⟨"c1", "add", JsonVal.jnull⟩, ⟨"c2", "mul", JsonVal.jnull⟩,
   ⟨"c3", "nope", JsonVal.jnull⟩]

/-- Concrete handlers: `add` succeeds, `mul` raises, `nope` is unregistered. -/
def c1handlers : Handlers := fun n =>
  if n = "add" then some (fun _ => Except.ok (OutVal.ostr "3"))
  else if n = "mul" then some (fun _ => Except.error "boom")
  else none

/-- A concrete batch with an unregistered tool name. -/
def c6tcs : List TCall :=
  [⟨"c1", "add", JsonVal.jnull⟩, ⟨"c2", "frob", JsonVal.jnull⟩]

/-- Concrete handlers registering only `add`. -/
def c6handlers : Handlers := fun n =>
  if n = "add" then some (fun _ => Except.ok (OutVal.ostr "3")) else none

/-- A concrete batch whose second handler raises. -/
def c7tcs : List TCall :=
  [⟨"c1", "add", JsonVal.jnull⟩, ⟨"c2", "boom", JsonVal.jnull⟩]

/-- Concrete handlers where `boom` raises a fault with message `"bad"`. -/
def c7handlers : Handlers := fun n =>
  if n = "add" then some (fun _ => Except.ok (OutVal.ostr "3"))
  else if n = "boom" then some (fun _ => Except.error "bad")
  else none

/-- A model capability that always answers with plain text. -/
def c4invoke : Invoke := fun _ => [ApiBlock.text "done"]

/-- An empty handler mapping. -/
def c4handlers : Handlers := fun _ => none

/-- A constant clock. -/
def c4clock : Nat → String := fun _ => "T"

/-- Empty completion schedules. -/
def c4perms : Nat → List Nat := fun _ => []

/-! ### Helper lemmas -/

theorem parse_block_ts (ts : String) (b : ApiBlock) (m : Message)
    (hm : m ∈ parse_block ts b) :
    m.ts = if m.isToolCall then none else some ts := by
  cases b with
  | thinking th sig =>
      simp only [parse_block, List.mem_singleton] at hm
      subst hm; rfl
  | text t =>
      by_cases ht : t = ""
      · simp [parse_block, ht] at hm
      · simp only [parse_block, ht, if_neg, List.mem_singleton, ite_false] at hm
        subst hm; rfl
  | tool_use id name input =>
      simp only [parse_block, List.mem_singleton] at hm
      subst hm; rfl
  | tool_result i c => simp [parse_block] at hm

/-- Claim C2 (amended): every message produced by `parse_response` carries the
parse-time timestamp, except `tool_call` messages, which carry none. -/
theorem claim_C2 (blocks : List ApiBlock) (ts : String) (m : Message)
    (hm : m ∈ parse_response blocks ts) :
    m.ts = if m.isToolCall then none else some ts := by
  induction blocks with
  | nil => simp [parse_response] at hm
  | cons b rest ih =>
      simp only [parse_response, List.mem_append] at hm
      rcases hm with hm | hm
      · exact parse_block_ts ts b m hm
      · exact ih hm

/-- Claim C2 counterexample: parsing a `tool_use` block yields a `tool_call`
message with no timestamp at all, refuting "every Message produced by inbound
translation carries the current timestamp". -/
theorem claim_C2_counterexample :
    ¬ ∀ m ∈ parse_response [ApiBlock.tool_use "call_001" "add" JsonVal.jnull] "T",
        m.ts = some "T" := by
  decide

/-- Claim C2 witness: the amended statement evaluated on a thinking block and
on a tool-use block. -/
theorem claim_C2_witness :
    (Message.thinking "hm" none (some "T"))
        ∈ parse_response [ApiBlock.thinking "hm" none] "T" ∧
    (Message.thinking "hm" none (some "T")).ts
        = (if (Message.thinking "hm" none (some "T")).isToolCall then none
           else some "T") :=
  ⟨by decide, claim_C2 [ApiBlock.thinking "hm" none] "T" _ (by decide)⟩

theorem mem_strip_of_mem {c : Char} {l : List Char}
    (h : c ∈ ((l.dropWhile Char.isWhitespace).reverse.dropWhile
      Char.isWhitespace).reverse) : c ∈ l := by
  rw [List.mem_reverse] at h
  have h2 := (List.dropWhile_sublist _).mem h
  rw [List.mem_reverse] at h2
  exact (List.dropWhile_sublist _).mem h2

/-- Claim C8: every rendered log line is at most 120 characters; when the
untruncated line exceeds 120 characters the emitted line is its first 117
characters followed by an ellipsis (so exactly 120); and the cleaned content
interpolated into the line contains no newline. -/
theorem claim_C8 (m : Message) (name : Option String) (nowTs : String) :
    (log_line m name nowTs).length ≤ 120 ∧
    (120 < (render_line m name nowTs).length →
      (log_line m name nowTs).data
          = (render_line m name nowTs).data.take 117 ++ ['.', '.', '.'] ∧
      (log_line m name nowTs).length = 120) ∧
    ∀ c ∈ (strip (replace_nl (log_content m))).data, c ≠ '\n' := by
  have hlen : ∀ l : List Char, (String.mk l ++ "...").length = l.length + 3 := by
    intro l
    rw [String.length_append]
    rfl
  refine ⟨?_, ?_, ?_⟩
  · show (log_line m name nowTs).length ≤ 120
    unfold log_line
    by_cases h : (render_line m name nowTs).length > 120
    · simp only [h, if_true]
      rw [hlen, List.length_take]
      omega
    · simp only [h, if_false]
      omega
  · intro h
    constructor
    · unfold log_line
      simp only [h, if_true]
      rw [String.data_append]
    · unfold log_line
      simp only [h, if_true]
      rw [hlen, List.length_take]
      have hd : (render_line m name nowTs).length
          = (render_line m name nowTs).data.length := rfl
      omega
  · intro c hc
    have hmem : c ∈ (replace_nl (log_content m)).data := mem_strip_of_mem hc
    simp only [replace_nl] at hmem
    rw [List.mem_map] at hmem
    obtain ⟨a, -, ha⟩ := hmem
    intro hcn
    rw [hcn] at ha
    by_cases hna : a = '\n'
    · rw [if_pos hna] at ha
      exact absurd ha (by decide)
    · rw [if_neg hna] at ha
      exact hna ha

set_option maxRecDepth 8000

/-- Claim C8 witness: the theorem evaluated on a user message long enough to
be truncated. -/
theorem claim_C8_witness :
    120 < (render_line
      (Message.user "aaaaaaaaaaaaaaaaaaaaaaaaaaaaaaaaaaaaaaaaaaaaaaaaaaaaaaaaaaaaaaaaaaaaaaaaaaaaaaaaaaaaaaaaaaaaaaaaaaaaaaaaaaaaaaaaaaaaaaaaaaaa" none)
      none "2024-01-01T00:00:00Z").length ∧
    (log_line
      (Message.user "aaaaaaaaaaaaaaaaaaaaaaaaaaaaaaaaaaaaaaaaaaaaaaaaaaaaaaaaaaaaaaaaaaaaaaaaaaaaaaaaaaaaaaaaaaaaaaaaaaaaaaaaaaaaaaaaaaaaaaaaaaaa" none)
      none "2024-01-01T00:00:00Z").length = 120 :=
  ⟨by decide,
   ((claim_C8 _ none "2024-01-01T00:00:00Z").2.1 (by decide)).2⟩

theorem filterMap_getElem_range (l : List (TCall × Handler)) :
    (List.range l.length).filterMap (fun i => l[i]?) = l := by
  induction l with
  | nil => rfl
  | cons a t ih =>
      rw [List.length_cons, List.range_succ_eq_map, List.filterMap_cons,
        List.filterMap_map]
      simp only [List.getElem?_cons_zero, Function.comp_def,
        List.getElem?_cons_succ]
      rw [ih]

theorem by_schedule_perm (perm : List Nat) (l : List (TCall × Handler))
    (h : ValidSchedule perm l.length) : (by_schedule perm l).Perm l := by
  unfold by_schedule
  have h2 := h.filterMap (fun i => l[i]?)
  rw [filterMap_getElem_range l] at h2
  exact h2

theorem sequential_eq_map (tool_calls : List TCall) (handlers : Handlers) :
    execute_tool_calls_sequential tool_calls handlers
      = tool_calls.map (resolve_call handlers) := rfl

theorem map_run_submitted (tool_calls : List TCall) (handlers : Handlers) :
    (submitted_calls tool_calls handlers).map (fun p => run_handler p.1 p.2)
      = (tool_calls.filter (fun tc => (handlers tc.name).isSome)).map
          (resolve_call handlers) := by
  induction tool_calls with
  | nil => rfl
  | cons tc rest ih =>
      unfold submitted_calls
      rw [List.filterMap_cons, List.filter_cons]
      cases hh : handlers tc.name with
      | none =>
          simp only [hh, Option.map_none', Option.isSome_none,
            Bool.false_eq_true, if_false]
          exact ih
      | some h =>
          simp only [hh, Option.map_some', Option.isSome_some, if_true,
            List.map_cons]
          have hhd : run_handler tc h = resolve_call handlers tc := by
            unfold resolve_call
            rw [hh]
          rw [hhd]
          congr 1

theorem map_unknown_filter (tool_calls : List TCall) (handlers : Handlers) :
    (tool_calls.filter (fun tc => (handlers tc.name).isNone)).map
        unknown_tool_result
      = (tool_calls.filter (fun tc => (handlers tc.name).isNone)).map
          (resolve_call handlers) := by
  apply List.map_congr_left
  intro tc htc
  rw [List.mem_filter] at htc
  unfold resolve_call
  rw [Option.isNone_iff_eq_none.mp htc.2]

theorem execute_perm_sequential (tool_calls : List TCall)
    (handlers : Handlers) (perm : List Nat)
    (hperm : ValidSchedule perm (submitted_calls tool_calls handlers).length) :
    (execute_tool_calls tool_calls handlers perm).Perm
      (execute_tool_calls_sequential tool_calls handlers) := by
  unfold execute_tool_calls
  rw [sequential_eq_map, map_unknown_filter]
  have h1 : ((by_schedule perm (submitted_calls tool_calls handlers)).map
      (fun p => run_handler p.1 p.2)).Perm
      ((tool_calls.filter (fun tc => (handlers tc.name).isSome)).map
        (resolve_call handlers)) := by
    rw [← map_run_submitted]
    exact (by_schedule_perm perm _ hperm).map _
  have h2 := (List.Perm.append_left
    ((tool_calls.filter (fun tc => (handlers tc.name).isNone)).map
      (resolve_call handlers)) h1)
  apply h2.trans
  rw [← List.map_append]
  apply List.Perm.map
  have h3 := List.filter_append_perm
    (fun tc => (handlers tc.name).isNone) tool_calls
  apply List.Perm.trans _ h3
  apply List.Perm.append_left
  apply List.Perm.of_eq
  apply List.filter_congr
  intro tc _
  cases handlers tc.name <;> rfl

theorem resolve_call_shape (handlers : Handlers) (tc : TCall) :
    resolve_call handlers tc
      = Message.tool_result tc.id (resolve_output handlers tc) none := by
  unfold resolve_call resolve_output unknown_tool_result run_handler
  cases hname : handlers tc.name with
  | none => rfl
  | some h => cases hr : h tc.input <;> simp [hr]

theorem outputs_for_map_resolve (handlers : Handlers) (tcs : List TCall)
    (id : String) :
    outputs_for (tcs.map (resolve_call handlers)) id
      = (tcs.filter (fun tc => tc.id = id)).map (resolve_output handlers) := by
  induction tcs with
  | nil => rfl
  | cons tc rest ih =>
      rw [List.map_cons, List.filter_cons]
      unfold outputs_for
      rw [List.filterMap_cons]
      rw [resolve_call_shape]
      unfold outputs_for at ih
      by_cases hid : tc.id = id
      · simp only [hid, if_true, decide_True, List.map_cons]
        rw [ih]
      · simp only [hid, if_false, decide_False, Bool.false_eq_true]
        rw [ih]

theorem filter_id_eq_singleton (tcs : List TCall) (tc : TCall)
    (hmem : tc ∈ tcs) (hnodup : (tcs.map TCall.id).Nodup) :
    tcs.filter (fun c => c.id = tc.id) = [tc] := by
  induction tcs with
  | nil => cases hmem
  | cons hd rest ih =>
      rw [List.map_cons, List.nodup_cons] at hnodup
      rw [List.filter_cons]
      rcases List.mem_cons.mp hmem with heq | hmemr
      · subst heq
        simp only [decide_True, if_true]
        have hrest : rest.filter (fun c => c.id = tc.id) = [] := by
          rw [List.filter_eq_nil_iff]
          intro c hc hdec
          exact hnodup.1 (by
            rw [List.mem_map]
            exact ⟨c, hc, of_decide_eq_true hdec⟩)
        rw [hrest]
      · have hne : hd.id ≠ tc.id := by
          intro he
          exact hnodup.1 (by
            rw [List.mem_map]
            exact ⟨tc, hmemr, he.symm⟩)
        simp only [hne, decide_False, if_false, Bool.false_eq_true]
        exact ih hmemr hnodup.2

theorem outputs_for_len_le_one (handlers : Handlers) (tcs : List TCall)
    (id : String) (hnodup : (tcs.map TCall.id).Nodup) :
    (outputs_for (execute_tool_calls_sequential tcs handlers) id).length ≤ 1 := by
  rw [sequential_eq_map, outputs_for_map_resolve, List.length_map]
  induction tcs with
  | nil => simp
  | cons tc rest ih =>
      rw [List.map_cons, List.nodup_cons] at hnodup
      rw [List.filter_cons]
      by_cases hid : tc.id = id
      · simp only [hid, decide_True, if_true, List.length_cons]
        have hrest : rest.filter (fun c => c.id = id) = [] := by
          rw [List.filter_eq_nil_iff]
          intro c hc hdec
          exact hnodup.1 (by
            rw [List.mem_map]
            exact ⟨c, hc, by rw [of_decide_eq_true hdec, hid]⟩)
        rw [hrest]
        simp
      · simp only [hid, decide_False, if_false, Bool.false_eq_true]
        exact ih hnodup.2

theorem perm_eq_of_length_le_one {α : Type} {l₁ l₂ : List α}
    (h : l₁.Perm l₂) (hlen : l₂.length ≤ 1) : l₁ = l₂ := by
  cases l₂ with
  | nil => exact h.eq_nil
  | cons a t =>
      cases t with
      | nil => exact List.perm_singleton.mp h
      | cons b t2 => simp at hlen

theorem outputs_for_perm (results₁ results₂ : List Message) (id : String)
    (h : results₁.Perm results₂) :
    (outputs_for results₁ id).Perm (outputs_for results₂ id) :=
  h.filterMap _

/-- Claim C1: for every batch and handler mapping, the concurrent dispatcher
(under any completion schedule) and the sequential mode produce the same set
of tool results and, when call ids are unique, the same id-to-output
mapping.  The sequential mode is modelled from the spec (the `parallel=False`
switch the tests exercise lives in the `simple_agent_loop` module, which is
not among the sources). -/
theorem claim_C1 (tcs : List TCall) (handlers : Handlers) (perm : List Nat)
    (hperm : ValidSchedule perm (submitted_calls tcs handlers).length) :
    (execute_tool_calls tcs handlers perm).Perm
        (execute_tool_calls_sequential tcs handlers) ∧
    ((tcs.map TCall.id).Nodup → ∀ id,
      outputs_for (execute_tool_calls tcs handlers perm) id
        = outputs_for (execute_tool_calls_sequential tcs handlers) id) := by
  have hp := execute_perm_sequential tcs handlers perm hperm
  refine ⟨hp, fun hnodup id => ?_⟩
  exact perm_eq_of_length_le_one (outputs_for_perm _ _ id hp)
    (outputs_for_len_le_one handlers tcs id hnodup)

/-- Claim C1 witness: the equivalence evaluated on a concrete batch under the
reversed completion schedule. -/
theorem claim_C1_witness :
    ValidSchedule [1, 0] (submitted_calls c1tcs c1handlers).length ∧
    (execute_tool_calls c1tcs c1handlers [1, 0]).Perm
      (execute_tool_calls_sequential c1tcs c1handlers) :=
  ⟨by decide, (claim_C1 c1tcs c1handlers [1, 0] (by decide)).1⟩

/-- Claim C6: a tool call whose name has no registered handler yields exactly
one synthetic tool result, carrying the call's id and the descriptive
"unknown tool" error string; the dispatcher still returns one result per call
(the embedding is a total function: nothing is raised and the loop goes on). -/
theorem claim_C6 (tcs : List TCall) (handlers : Handlers) (perm : List Nat)
    (tc : TCall) (hmem : tc ∈ tcs) (hnone : handlers tc.name = none)
    (hnodup : (tcs.map TCall.id).Nodup)
    (hperm : ValidSchedule perm (submitted_calls tcs handlers).length) :
    outputs_for (execute_tool_calls tcs handlers perm) tc.id
        = [OutVal.ostr ("Error: unknown tool " ++ squote ++ tc.name ++ squote)]
    ∧ (execute_tool_calls tcs handlers perm).length = tcs.length := by
  have hp := execute_perm_sequential tcs handlers perm hperm
  have hseq : outputs_for (execute_tool_calls_sequential tcs handlers) tc.id
      = [resolve_output handlers tc] := by
    rw [sequential_eq_map, outputs_for_map_resolve,
      filter_id_eq_singleton tcs tc hmem hnodup, List.map_singleton]
  have hout : resolve_output handlers tc
      = OutVal.ostr ("Error: unknown tool " ++ squote ++ tc.name ++ squote) := by
    unfold resolve_output
    rw [hnone]
  constructor
  · have he := perm_eq_of_length_le_one (outputs_for_perm _ _ tc.id hp)
      (by rw [hseq]; exact le_refl 1)
    rw [he, hseq, hout]
  · rw [hp.length_eq, sequential_eq_map, List.length_map]

/-- Claim C6 witness: the unknown-tool contract evaluated on a concrete
batch. -/
theorem claim_C6_witness :
    (⟨"c2", "frob", JsonVal.jnull⟩ : TCall) ∈ c6tcs ∧
    c6handlers (TCall.name ⟨"c2", "frob", JsonVal.jnull⟩) = none ∧
    outputs_for (execute_tool_calls c6tcs c6handlers [0])
        (TCall.id ⟨"c2", "frob", JsonVal.jnull⟩)
      = [OutVal.ostr ("Error: unknown tool " ++ squote ++
          TCall.name (⟨"c2", "frob", JsonVal.jnull⟩ : TCall) ++ squote)] :=
  ⟨by decide, by rfl,
   (claim_C6 c6tcs c6handlers [0] ⟨"c2", "frob", JsonVal.jnull⟩ (by decide)
     (by rfl) (by decide) (by decide)).1⟩

/-- Claim C7: a tool call whose handler raises yields exactly one synthetic
tool result, carrying the call's id and `"Error: "` followed by the fault's
message; the dispatcher still returns one result per call (the embedding is
a total function: the batch completes and the loop goes on). -/
theorem claim_C7 (tcs : List TCall) (handlers : Handlers) (perm : List Nat)
    (tc : TCall) (h : Handler) (e : String) (hmem : tc ∈ tcs)
    (hsome : handlers tc.name = some h) (herr : h tc.input = Except.error e)
    (hnodup : (tcs.map TCall.id).Nodup)
    (hperm : ValidSchedule perm (submitted_calls tcs handlers).length) :
    outputs_for (execute_tool_calls tcs handlers perm) tc.id
        = [OutVal.ostr ("Error: " ++ e)]
    ∧ (execute_tool_calls tcs handlers perm).length = tcs.length := by
  have hp := execute_perm_sequential tcs handlers perm hperm
  have hseq : outputs_for (execute_tool_calls_sequential tcs handlers) tc.id
      = [resolve_output handlers tc] := by
    rw [sequential_eq_map, outputs_for_map_resolve,
      filter_id_eq_singleton tcs tc hmem hnodup, List.map_singleton]
  have hout : resolve_output handlers tc = OutVal.ostr ("Error: " ++ e) := by
    simp [resolve_output, hsome, herr]
  constructor
  · have he := perm_eq_of_length_le_one (outputs_for_perm _ _ tc.id hp)
      (by rw [hseq]; exact le_refl 1)
    rw [he, hseq, hout]
  · rw [hp.length_eq, sequential_eq_map, List.length_map]

/-- Claim C7 witness: the raising-handler contract evaluated on a concrete
batch. -/
theorem claim_C7_witness :
    (⟨"c2", "boom", JsonVal.jnull⟩ : TCall) ∈ c7tcs ∧
    outputs_for (execute_tool_calls c7tcs c7handlers [1, 0])
        (TCall.id ⟨"c2", "boom", JsonVal.jnull⟩)
      = [OutVal.ostr ("Error: " ++ "bad")] :=
  ⟨by decide,
   (claim_C7 c7tcs c7handlers [1, 0] ⟨"c2", "boom", JsonVal.jnull⟩
     (fun _ => Except.error "bad") "bad" (by decide) (by rfl) (by rfl)
     (by decide) (by decide)).1⟩

theorem isSystem_system (c : String) (t : Option String) :
    (Message.system c t).isSystem = true := rfl

theorem isSystem_user (c : String) (t : Option String) :
    (Message.user c t).isSystem = false := rfl

theorem isSystem_assistant (c : String) (t : Option String) :
    (Message.assistant c t).isSystem = false := rfl

theorem isSystem_thinking (c : String) (sig t : Option String) :
    (Message.thinking c sig t).isSystem = false := rfl

theorem isSystem_tool_call (id name : String) (input : JsonVal)
    (t : Option String) : (Message.tool_call id name input t).isSystem = false := rfl

theorem isSystem_tool_result (id : String) (output : OutVal)
    (t : Option String) : (Message.tool_result id output t).isSystem = false := rfl

theorem to_api_filter_systems (msgs : List Message) :
    ∀ ab trb, to_api_go (msgs.filter (fun m => !m.isSystem)) ab trb
      = to_api_go msgs ab trb := by
  induction msgs with
  | nil => intro ab trb; rfl
  | cons m rest ih =>
      intro ab trb
      cases m with
      | system c t =>
          simpa [List.filter_cons, isSystem_system, to_api_go] using ih ab trb
      | user c t => simp [List.filter_cons, isSystem_user, to_api_go, ih]
      | assistant c t =>
          simp [List.filter_cons, isSystem_assistant, to_api_go, ih]
      | thinking c sig t =>
          simp [List.filter_cons, isSystem_thinking, to_api_go, ih]
      | tool_call id name input t =>
          simp [List.filter_cons, isSystem_tool_call, to_api_go, ih]
      | tool_result id output t =>
          simp [List.filter_cons, isSystem_tool_result, to_api_go, ih]

theorem drop_extra_filter (msgs : List Message) :
    ∀ seen, (drop_extra_systems seen msgs).filter (fun m => !m.isSystem)
      = msgs.filter (fun m => !m.isSystem) := by
  induction msgs with
  | nil => intro seen; rfl
  | cons m rest ih =>
      intro seen
      cases m with
      | system c t =>
          cases seen <;>
            simp [drop_extra_systems, isSystem_system, List.filter_cons, ih]
      | user c t =>
          simp [drop_extra_systems, isSystem_user, List.filter_cons, ih]
      | assistant c t =>
          simp [drop_extra_systems, isSystem_assistant, List.filter_cons, ih]
      | thinking c sig t =>
          simp [drop_extra_systems, isSystem_thinking, List.filter_cons, ih]
      | tool_call id name input t =>
          simp [drop_extra_systems, isSystem_tool_call, List.filter_cons, ih]
      | tool_result id output t =>
          simp [drop_extra_systems, isSystem_tool_result, List.filter_cons, ih]

theorem drop_extra_system_content_true (msgs : List Message) :
    (drop_extra_systems true msgs).filterMap system_content = [] := by
  induction msgs with
  | nil => rfl
  | cons m rest ih =>
      cases m <;>
        simp [drop_extra_systems, isSystem_system, isSystem_user,
          isSystem_assistant, isSystem_thinking, isSystem_tool_call,
          isSystem_tool_result, system_content, List.filterMap_cons, ih]

theorem drop_extra_system_content_false (msgs : List Message) :
    (drop_extra_systems false msgs).filterMap system_content
      = (msgs.filterMap system_content).take 1 := by
  induction msgs with
  | nil => rfl
  | cons m rest ih =>
      cases m <;>
        simp [drop_extra_systems, isSystem_system, isSystem_user,
          isSystem_assistant, isSystem_thinking, isSystem_tool_call,
          isSystem_tool_result, system_content, List.filterMap_cons, ih,
          drop_extra_system_content_true]

theorem head_take_one {α : Type} (l : List α) : (l.take 1).head? = l.head? := by
  cases l <;> rfl

/-- Claim C10: with several system entries in the session, the provider
request carries only the first one's content as its top-level system field,
the turn list never contains system-derived turns, and the whole request is
unchanged when every system entry after the first is removed — later system
entries are invisible to the model. -/
theorem claim_C10 (msgs : List Message) (c : String) (rest : List String)
    (hsys : msgs.filterMap system_content = c :: rest) :
    (build_api_session msgs).system = some c ∧
    to_api_messages msgs
      = to_api_messages (msgs.filter (fun m => !m.isSystem)) ∧
    build_api_session msgs = build_api_session (keep_first_system msgs) := by
  refine ⟨?_, ?_, ?_⟩
  · unfold build_api_session
    rw [hsys]
    rfl
  · exact (to_api_filter_systems msgs [] []).symm
  · unfold build_api_session keep_first_system
    have h1 : (drop_extra_systems false msgs).filterMap system_content
        = ((msgs.filterMap system_content).take 1) :=
      drop_extra_system_content_false msgs
    have h2 : to_api_messages (drop_extra_systems false msgs)
        = to_api_messages msgs := by
      unfold to_api_messages
      rw [← to_api_filter_systems (drop_extra_systems false msgs) [] [],
        drop_extra_filter msgs false, to_api_filter_systems msgs [] []]
    rw [h1, h2, head_take_one]

/-- Claim C10 witness: a session with two system entries evaluated
concretely. -/
theorem claim_C10_witness :
    ([Message.system "first" none, Message.user "hi" none,
        Message.system "second" none].filterMap system_content
      = "first" :: ["second"]) ∧
    (build_api_session [Message.system "first" none, Message.user "hi" none,
        Message.system "second" none]).system = some "first" :=
  ⟨by decide,
   (claim_C10 [Message.system "first" none, Message.user "hi" none,
      Message.system "second" none] "first" ["second"] (by decide)).1⟩

theorem chunks_cons_eq (m : Message) (l : List Message) :
    chunks (m :: l)
      = match chunks l with
        | (k, run) :: more =>
            if coalesce_class m = k ∧ groupable k then (k, m :: run) :: more
            else (coalesce_class m, [m]) :: (k, run) :: more
        | [] => [(coalesce_class m, [m])] := rfl

theorem chunks_head_class (m : Message) (l : List Message) :
    ∃ run more, chunks (m :: l) = (coalesce_class m, run) :: more := by
  cases h : chunks l with
  | nil =>
      refine ⟨[m], [], ?_⟩
      simp [chunks_cons_eq, h]
  | cons p more =>
      obtain ⟨k, run⟩ := p
      by_cases hc : coalesce_class m = k ∧ groupable k
      · refine ⟨m :: run, more, ?_⟩
        rw [chunks_cons_eq]
        simp only [h]
        rw [if_pos hc, hc.1]
      · refine ⟨[m], (k, run) :: more, ?_⟩
        rw [chunks_cons_eq]
        simp only [h]
        rw [if_neg hc]

theorem chunks_span (k : Nat) (hk : groupable k = true) (m : Message)
    (hm : coalesce_class m = k) (l : List Message) :
    chunks (m :: l)
      = (k, m :: l.takeWhile (fun x => coalesce_class x == k))
          :: chunks (l.dropWhile (fun x => coalesce_class x == k)) := by
  induction l generalizing m with
  | nil =>
      rw [chunks_cons_eq]
      simp only [chunks]
      rw [hm]
      rfl
  | cons x l2 ih =>
      by_cases hx : coalesce_class x = k
      · have hxb : (coalesce_class x == k) = true := by simp [hx]
        rw [List.takeWhile_cons, List.dropWhile_cons, hxb]
        simp only [if_true]
        rw [chunks_cons_eq]
        simp only [ih x hx]
        rw [if_pos ⟨hm, hk⟩]
      · have hxb : (coalesce_class x == k) = false := by simp [hx]
        rw [List.takeWhile_cons, List.dropWhile_cons, hxb]
        simp only [Bool.false_eq_true, if_false]
        obtain ⟨run, more, hch⟩ := chunks_head_class x l2
        rw [chunks_cons_eq]
        simp only [hch]
        rw [if_neg (by
          rintro ⟨h1, -⟩
          exact hx (h1 ▸ hm))]
        rw [hm, ← hch]

theorem chunks_single (m : Message) (hng : groupable (coalesce_class m) = false)
    (l : List Message) :
    chunks (m :: l) = (coalesce_class m, [m]) :: chunks l := by
  cases h : chunks l with
  | nil => simp [chunks_cons_eq, h]
  | cons p more =>
      obtain ⟨k, run⟩ := p
      rw [chunks_cons_eq]
      simp only [h]
      rw [if_neg (by
        rintro ⟨h1, h2⟩
        rw [← h1, hng] at h2
        exact Bool.noConfusion h2)]

theorem group_spec_cons0 (m : Message) (hm : coalesce_class m = 0)
    (l : List Message) :
    group_spec (m :: l)
      = ApiMessage.assistantTurn
          ((m :: l.takeWhile (fun x => coalesce_class x == 0)).map assistant_block)
        :: group_spec (l.dropWhile (fun x => coalesce_class x == 0)) := by
  unfold group_spec
  rw [chunks_span 0 rfl m hm l, List.flatMap_cons]
  rfl

theorem group_spec_cons1 (m : Message) (hm : coalesce_class m = 1)
    (l : List Message) :
    group_spec (m :: l)
      = ApiMessage.userBlocks
          ((m :: l.takeWhile (fun x => coalesce_class x == 1)).map tool_result_block)
        :: group_spec (l.dropWhile (fun x => coalesce_class x == 1)) := by
  unfold group_spec
  rw [chunks_span 1 rfl m hm l, List.flatMap_cons]
  rfl

theorem group_spec_cons2 (c : String) (t : Option String) (l : List Message) :
    group_spec (Message.user c t :: l)
      = ApiMessage.userText c :: group_spec l := by
  unfold group_spec
  rw [chunks_single (Message.user c t) rfl l, List.flatMap_cons]
  rfl

theorem group_spec_cons3 (c : String) (t : Option String) (l : List Message) :
    group_spec (Message.system c t :: l) = group_spec l := by
  unfold group_spec
  rw [chunks_single (Message.system c t) rfl l, List.flatMap_cons]
  rfl

theorem flush_assistant_ne (ab : List ApiBlock) (h : ab ≠ []) :
    flush_assistant ab = [ApiMessage.assistantTurn ab] := by
  unfold flush_assistant
  rw [if_neg]
  simp [h]

theorem flush_tool_results_ne (trb : List ApiBlock) (h : trb ≠ []) :
    flush_tool_results trb = [ApiMessage.userBlocks trb] := by
  unfold flush_tool_results
  rw [if_neg]
  simp [h]

theorem cls_system (c : String) (t : Option String) :
    coalesce_class (Message.system c t) = 3 := rfl

theorem cls_user (c : String) (t : Option String) :
    coalesce_class (Message.user c t) = 2 := rfl

theorem cls_assistant (c : String) (t : Option String) :
    coalesce_class (Message.assistant c t) = 0 := rfl

theorem cls_thinking (c : String) (sig t : Option String) :
    coalesce_class (Message.thinking c sig t) = 0 := rfl

theorem cls_tool_call (id name : String) (input : JsonVal) (t : Option String) :
    coalesce_class (Message.tool_call id name input t) = 0 := rfl

theorem cls_tool_result (id : String) (output : OutVal) (t : Option String) :
    coalesce_class (Message.tool_result id output t) = 1 := rfl

theorem ab_assistant (c : String) (t : Option String) :
    assistant_block (Message.assistant c t) = ApiBlock.text c := rfl

theorem ab_thinking (c : String) (sig t : Option String) :
    assistant_block (Message.thinking c sig t) = ApiBlock.thinking c sig := rfl

theorem ab_tool_call (id name : String) (input : JsonVal) (t : Option String) :
    assistant_block (Message.tool_call id name input t)
      = ApiBlock.tool_use id name input := rfl

theorem trb_tool_result (id : String) (output : OutVal) (t : Option String) :
    tool_result_block (Message.tool_result id output t)
      = ApiBlock.tool_result id output.serialize := rfl

theorem to_api_go_group (msgs : List Message) :
    to_api_go msgs [] [] = group_spec (msgs.filter (fun m => !m.isSystem)) ∧
    (∀ ab, ab ≠ [] → to_api_go msgs ab []
      = ApiMessage.assistantTurn (ab ++
          ((msgs.filter (fun m => !m.isSystem)).takeWhile
            (fun x => coalesce_class x == 0)).map assistant_block)
        :: group_spec ((msgs.filter (fun m => !m.isSystem)).dropWhile
            (fun x => coalesce_class x == 0))) ∧
    (∀ trb, trb ≠ [] → to_api_go msgs [] trb
      = ApiMessage.userBlocks (trb ++
          ((msgs.filter (fun m => !m.isSystem)).takeWhile
            (fun x => coalesce_class x == 1)).map tool_result_block)
        :: group_spec ((msgs.filter (fun m => !m.isSystem)).dropWhile
            (fun x => coalesce_class x == 1))) := by
  induction msgs with
  | nil =>
      refine ⟨rfl, ?_, ?_⟩
      · intro ab hab
        show flush_assistant ab ++ flush_tool_results [] = _
        rw [flush_assistant_ne ab hab]
        simp [group_spec, chunks, flush_tool_results]
      · intro trb htrb
        show flush_assistant [] ++ flush_tool_results trb = _
        rw [flush_tool_results_ne trb htrb]
        simp [group_spec, chunks, flush_assistant]
  | cons m rest ih =>
      obtain ⟨ih1, ih2, ih3⟩ := ih
      refine ⟨?_, ?_, ?_⟩
      · cases m with
        | system c t =>
            simpa [to_api_go, List.filter_cons, isSystem_system] using ih1
        | user c t =>
            simp [to_api_go, flush_assistant, flush_tool_results,
              List.filter_cons, isSystem_user, group_spec_cons2, ih1]
        | assistant c t =>
            simp [to_api_go, flush_tool_results, List.filter_cons,
              isSystem_assistant, group_spec_cons0, cls_assistant,
              ab_assistant, ih2 [ApiBlock.text c] (by simp)]
        | thinking c sig t =>
            simp [to_api_go, flush_tool_results, List.filter_cons,
              isSystem_thinking, group_spec_cons0, cls_thinking,
              ab_thinking, ih2 [ApiBlock.thinking c sig] (by simp)]
        | tool_call id name input t =>
            simp [to_api_go, flush_tool_results, List.filter_cons,
              isSystem_tool_call, group_spec_cons0, cls_tool_call,
              ab_tool_call, ih2 [ApiBlock.tool_use id name input] (by simp)]
        | tool_result id output t =>
            simp [to_api_go, flush_assistant, List.filter_cons,
              isSystem_tool_result, group_spec_cons1, cls_tool_result,
              trb_tool_result,
              ih3 [ApiBlock.tool_result id output.serialize] (by simp)]
      · intro ab hab
        cases m with
        | system c t =>
            simpa [to_api_go, List.filter_cons, isSystem_system] using ih2 ab hab
        | user c t =>
            simp [to_api_go, flush_assistant_ne ab hab, flush_tool_results,
              List.filter_cons, isSystem_user, List.takeWhile_cons,
              List.dropWhile_cons, cls_user, group_spec_cons2, ih1]
        | assistant c t =>
            simp [to_api_go, flush_tool_results, List.filter_cons,
              isSystem_assistant, List.takeWhile_cons, List.dropWhile_cons,
              cls_assistant, ab_assistant,
              ih2 (ab ++ [ApiBlock.text c]) (by simp)]
        | thinking c sig t =>
            simp [to_api_go, flush_tool_results, List.filter_cons,
              isSystem_thinking, List.takeWhile_cons, List.dropWhile_cons,
              cls_thinking, ab_thinking,
              ih2 (ab ++ [ApiBlock.thinking c sig]) (by simp)]
        | tool_call id name input t =>
            simp [to_api_go, flush_tool_results, List.filter_cons,
              isSystem_tool_call, List.takeWhile_cons, List.dropWhile_cons,
              cls_tool_call, ab_tool_call,
              ih2 (ab ++ [ApiBlock.tool_use id name input]) (by simp)]
        | tool_result id output t =>
            simp [to_api_go, flush_assistant_ne ab hab, List.filter_cons,
              isSystem_tool_result, List.takeWhile_cons, List.dropWhile_cons,
              cls_tool_result, group_spec_cons1, trb_tool_result,
              ih3 [ApiBlock.tool_result id output.serialize] (by simp)]
      · intro trb htrb
        cases m with
        | system c t =>
            simpa [to_api_go, List.filter_cons, isSystem_system] using ih3 trb htrb
        | user c t =>
            simp [to_api_go, flush_assistant, flush_tool_results_ne trb htrb,
              List.filter_cons, isSystem_user, List.takeWhile_cons,
              List.dropWhile_cons, cls_user, group_spec_cons2, ih1]
        | assistant c t =>
            simp [to_api_go, flush_tool_results_ne trb htrb, List.filter_cons,
              isSystem_assistant, List.takeWhile_cons, List.dropWhile_cons,
              cls_assistant, ab_assistant, group_spec_cons0,
              ih2 [ApiBlock.text c] (by simp)]
        | thinking c sig t =>
            simp [to_api_go, flush_tool_results_ne trb htrb, List.filter_cons,
              isSystem_thinking, List.takeWhile_cons, List.dropWhile_cons,
              cls_thinking, ab_thinking, group_spec_cons0,
              ih2 [ApiBlock.thinking c sig] (by simp)]
        | tool_call id name input t =>
            simp [to_api_go, flush_tool_results_ne trb htrb, List.filter_cons,
              isSystem_tool_call, List.takeWhile_cons, List.dropWhile_cons,
              cls_tool_call, ab_tool_call, group_spec_cons0,
              ih2 [ApiBlock.tool_use id name input] (by simp)]
        | tool_result id output t =>
            simp [to_api_go, flush_assistant, List.filter_cons,
              isSystem_tool_result, List.takeWhile_cons, List.dropWhile_cons,
              cls_tool_result, trb_tool_result,
              ih3 (trb ++ [ApiBlock.tool_result id output.serialize]) (by simp)]

/-- Claim C5 (amended): `to_api_messages` implements the maximal-run
grouping computed on the sequence with system entries removed: each maximal
run of consecutive thinking/assistant/tool_call entries becomes one assistant
turn of sub-blocks in order, each maximal run of consecutive tool_result
entries one user-role turn of tool-result blocks, each plain user entry its
own turn, and system entries never appear.  (On the raw sequence the claim
fails: a system entry between two runs does not flush the buffer.) -/
theorem claim_C5 (msgs : List Message) :
    to_api_messages msgs = group_spec (msgs.filter (fun m => !m.isSystem)) :=
  (to_api_go_group msgs).1

/-- Claim C5 counterexample: a system entry standing between a thinking entry
and an assistant entry separates two maximal runs of consecutive model-turn
messages, yet `to_api_messages` coalesces them into a single assistant turn,
so the grouping is not by maximal runs of the raw sequence. -/
theorem claim_C5_counterexample :
    to_api_messages [Message.thinking "a" none none, Message.system "s" none,
        Message.assistant "b" none]
      ≠ group_spec [Message.thinking "a" none none, Message.system "s" none,
        Message.assistant "b" none] ∧
    group_spec [Message.thinking "a" none none, Message.system "s" none,
        Message.assistant "b" none]
      = [ApiMessage.assistantTurn [ApiBlock.thinking "a" none],
         ApiMessage.assistantTurn [ApiBlock.text "b"]] ∧
    to_api_messages [Message.thinking "a" none none, Message.system "s" none,
        Message.assistant "b" none]
      = [ApiMessage.assistantTurn
          [ApiBlock.thinking "a" none, ApiBlock.text "b"]] := by
  decide

theorem to_api_go_model_turn (turn : List Message)
    (hcls : ∀ m ∈ turn, coalesce_class m = 0) :
    ∀ ab, to_api_go turn ab []
      = flush_assistant (ab ++ turn.map assistant_block) := by
  induction turn with
  | nil =>
      intro ab
      simp [to_api_go, flush_tool_results]
  | cons m rest ih =>
      intro ab
      have hrest : ∀ x ∈ rest, coalesce_class x = 0 := fun x hx =>
        hcls x (List.mem_cons_of_mem m hx)
      cases m with
      | system c t =>
          have h0 := hcls _ (List.mem_cons_self _ _)
          simp [coalesce_class] at h0
      | user c t =>
          have h0 := hcls _ (List.mem_cons_self _ _)
          simp [coalesce_class] at h0
      | tool_result id output t =>
          have h0 := hcls _ (List.mem_cons_self _ _)
          simp [coalesce_class] at h0
      | assistant c t =>
          simp [to_api_go, flush_tool_results, ih hrest, ab_assistant,
            List.append_assoc]
      | thinking c sig t =>
          simp [to_api_go, flush_tool_results, ih hrest, ab_thinking,
            List.append_assoc]
      | tool_call id name input t =>
          simp [to_api_go, flush_tool_results, ih hrest, ab_tool_call,
            List.append_assoc]

theorem parse_map_assistant_block (turn : List Message) (ts : String)
    (hcls : ∀ m ∈ turn, coalesce_class m = 0)
    (hne : ∀ c t, Message.assistant c t ∈ turn → c ≠ "") :
    parse_response (turn.map assistant_block) ts
      = turn.map (reparse_ts ts) := by
  induction turn with
  | nil => rfl
  | cons m rest ih =>
      have hrest : ∀ x ∈ rest, coalesce_class x = 0 := fun x hx =>
        hcls x (List.mem_cons_of_mem m hx)
      have hnerest : ∀ c t, Message.assistant c t ∈ rest → c ≠ "" :=
        fun c t hx => hne c t (List.mem_cons_of_mem m hx)
      cases m with
      | system c t =>
          have h0 := hcls _ (List.mem_cons_self _ _)
          simp [coalesce_class] at h0
      | user c t =>
          have h0 := hcls _ (List.mem_cons_self _ _)
          simp [coalesce_class] at h0
      | tool_result id output t =>
          have h0 := hcls _ (List.mem_cons_self _ _)
          simp [coalesce_class] at h0
      | assistant c t =>
          have hc : c ≠ "" := hne c t (List.mem_cons_self _ _)
          simp [parse_response, parse_block, ab_assistant, hc, reparse_ts,
            ih hrest hnerest]
      | thinking c sig t =>
          simp [parse_response, parse_block, ab_thinking, reparse_ts,
            ih hrest hnerest]
      | tool_call id name input t =>
          simp [parse_response, parse_block, ab_tool_call, reparse_ts,
            ih hrest hnerest]

/-- Claim C3 (amended): for a model turn (consecutive thinking, assistant and
tool_call entries) in which every assistant entry has non-empty text,
outbound-then-inbound translation returns exactly the same messages up to
re-timestamping: text, thinking content, signatures and tool-call fields are
preserved verbatim.  (Without the non-empty proviso an assistant entry with
empty text is dropped by the inbound side.) -/
theorem claim_C3 (turn : List Message) (ts : String)
    (hcls : ∀ m ∈ turn, coalesce_class m = 0)
    (hne : ∀ c t, Message.assistant c t ∈ turn → c ≠ "") :
    round_trip turn ts = turn.map (reparse_ts ts) := by
  cases turn with
  | nil => rfl
  | cons m rest =>
      unfold round_trip turn_blocks to_api_messages
      rw [to_api_go_model_turn (m :: rest) hcls []]
      rw [List.nil_append]
      rw [flush_assistant_ne _ (by simp)]
      exact parse_map_assistant_block (m :: rest) ts hcls hne

/-- Claim C3 counterexample: an assistant entry with empty text is a model
turn on which outbound-then-inbound translation drops the message entirely,
so the parsed messages are not equal to the originals (even ignoring
timestamps). -/
theorem claim_C3_counterexample :
    (∀ m ∈ [Message.assistant "" none], coalesce_class m = 0) ∧
    (round_trip [Message.assistant "" none] "T").map strip_ts
      ≠ [Message.assistant "" none].map strip_ts := by
  decide

/-- Claim C3 witness: the amended round-trip evaluated on a concrete model
turn of one thinking, one assistant and one tool_call entry. -/
theorem claim_C3_witness :
    (∀ m ∈ [Message.thinking "why" (some "sig_abc") (some "t0"),
        Message.assistant "hi" (some "t0"),
        Message.tool_call "c1" "add" JsonVal.jnull (some "t0")],
      coalesce_class m = 0) ∧
    round_trip [Message.thinking "why" (some "sig_abc") (some "t0"),
        Message.assistant "hi" (some "t0"),
        Message.tool_call "c1" "add" JsonVal.jnull (some "t0")] "T"
      = [Message.thinking "why" (some "sig_abc") (some "T"),
         Message.assistant "hi" (some "T"),
         Message.tool_call "c1" "add" JsonVal.jnull none] :=
  ⟨by decide,
   by
    rw [claim_C3 _ "T" (by decide) (by
      intro c t hmem
      simp at hmem
      rw [hmem.1]
      decide)]
    rfl⟩

theorem agent_loop_aux_le (invoke : Invoke) (handlers : Handlers)
    (clock : Nat → String) (perms : Nat → List Nat) (n : Nat) :
    ∀ fuel it msgs,
      (agent_loop_aux invoke handlers clock perms (some n) it fuel
        msgs).invocations ≤ n - it := by
  intro fuel
  induction fuel with
  | zero =>
      intro it msgs
      simp only [agent_loop_aux]
      split <;> simp
  | succ f ih =>
      intro it msgs
      by_cases hcont : loop_continues (some n) it = true
      · have hit : it < n := by
          simp only [loop_continues, decide_eq_true_eq] at hcont
          exact hcont
        simp only [agent_loop_aux, hcont, if_true]
        by_cases hemp : (tool_calls_of (parse_response
            (invoke (build_api_session msgs)) (clock it))).isEmpty = true
        · simp only [hemp, if_true]
          omega
        · simp only [hemp, Bool.false_eq_true, if_false]
          have := ih (it + 1)
            ((msgs ++ parse_response (invoke (build_api_session msgs)) (clock it))
              ++ dispatch (parse_response (invoke (build_api_session msgs))
                (clock it)) handlers (perms it))
          omega
      · simp only [agent_loop_aux, hcont, Bool.false_eq_true, if_false]
        simp

theorem reply_at_shift (invoke : Invoke) (handlers : Handlers)
    (clock : Nat → String) (perms : Nat → List Nat) (it : Nat)
    (msgs : List Message) (j : Nat) :
    reply_at invoke handlers clock perms it msgs (j + 1)
      = reply_at invoke handlers clock perms (it + 1)
          (loop_step invoke handlers clock perms it msgs) j := by
  unfold reply_at
  have h : it + (j + 1) = (it + 1) + j := by omega
  rw [h]
  rfl

theorem agent_loop_aux_uncapped (invoke : Invoke) (handlers : Handlers)
    (clock : Nat → String) (perms : Nat → List Nat) :
    ∀ k it fuel msgs,
      (∀ j, j < k →
        tool_calls_of (reply_at invoke handlers clock perms it msgs j) ≠ []) →
      tool_calls_of (reply_at invoke handlers clock perms it msgs k) = [] →
      k < fuel →
      agent_loop_aux invoke handlers clock perms none it fuel msgs
        = ⟨session_at invoke handlers clock perms it msgs k
            ++ reply_at invoke handlers clock perms it msgs k, k + 1, true⟩ := by
  intro k
  induction k with
  | zero =>
      intro it fuel msgs hprev hstop hfuel
      obtain ⟨f, rfl⟩ : ∃ f, fuel = f + 1 := ⟨fuel - 1, by omega⟩
      have hemp : (tool_calls_of (parse_response
          (invoke (build_api_session msgs)) (clock it))).isEmpty = true := by
        rw [List.isEmpty_iff]
        exact hstop
      simp only [agent_loop_aux, loop_continues, if_true, hemp]
      rfl
  | succ k ih =>
      intro it fuel msgs hprev hstop hfuel
      obtain ⟨f, rfl⟩ : ∃ f, fuel = f + 1 := ⟨fuel - 1, by omega⟩
      have h0 : tool_calls_of (reply_at invoke handlers clock perms it msgs 0)
          ≠ [] := hprev 0 (Nat.succ_pos k)
      have hemp : (tool_calls_of (parse_response
          (invoke (build_api_session msgs)) (clock it))).isEmpty = false := by
        rw [List.isEmpty_eq_false]
        exact h0
      have hrec := ih (it + 1) f
        (loop_step invoke handlers clock perms it msgs)
        (fun j hj => by
          rw [← reply_at_shift]
          exact hprev (j + 1) (by omega))
        (by
          rw [← reply_at_shift]
          exact hstop)
        (by omega)
      simp only [agent_loop_aux, loop_continues, if_true, hemp,
        Bool.false_eq_true, if_false]
      rw [show ((msgs ++ parse_response (invoke (build_api_session msgs))
            (clock it)) ++ dispatch (parse_response
            (invoke (build_api_session msgs)) (clock it)) handlers (perms it))
          = loop_step invoke handlers clock perms it msgs from rfl]
      rw [hrec]
      rw [reply_at_shift]
      rfl

/-- Claim C4: with a configured cap `n` the loop performs at most `n` model
invocations; with no cap it iterates while replies contain tool calls and,
as soon as the `k`-th reply contains none, it stops after exactly `k + 1`
invocations, appending that reply and dispatching no tools afterwards. -/
theorem claim_C4 :
    (∀ (invoke : Invoke) (handlers : Handlers) (clock : Nat → String)
        (perms : Nat → List Nat) (n fuel : Nat) (msgs : List Message),
      (agent_loop invoke handlers clock perms (some n) fuel msgs).invocations
        ≤ n) ∧
    (∀ (invoke : Invoke) (handlers : Handlers) (clock : Nat → String)
        (perms : Nat → List Nat) (k fuel : Nat) (msgs : List Message),
      (∀ j, j < k →
        tool_calls_of (reply_at invoke handlers clock perms 0 msgs j) ≠ []) →
      tool_calls_of (reply_at invoke handlers clock perms 0 msgs k) = [] →
      k < fuel →
      agent_loop invoke handlers clock perms none fuel msgs
        = ⟨session_at invoke handlers clock perms 0 msgs k
            ++ reply_at invoke handlers clock perms 0 msgs k, k + 1, true⟩) := by
  constructor
  · intro invoke handlers clock perms n fuel msgs
    have h := agent_loop_aux_le invoke handlers clock perms n fuel 0 msgs
    simpa using h
  · intro invoke handlers clock perms k fuel msgs hprev hstop hfuel
    exact agent_loop_aux_uncapped invoke handlers clock perms k 0 fuel msgs
      hprev hstop hfuel

/-- Claim C4 witness: a model that immediately answers without tool calls
makes exactly one invocation and stops, and a capped run stays within its
cap. -/
theorem claim_C4_witness :
    tool_calls_of (reply_at c4invoke c4handlers c4clock c4perms 0 [] 0) = [] ∧
    agent_loop c4invoke c4handlers c4clock c4perms none 1 []
      = ⟨session_at c4invoke c4handlers c4clock c4perms 0 [] 0
          ++ reply_at c4invoke c4handlers c4clock c4perms 0 [] 0, 0 + 1,
          true⟩ ∧
    (agent_loop c4invoke c4handlers c4clock c4perms (some 2) 5
      []).invocations ≤ 2 :=
  ⟨by decide,
   claim_C4.2 c4invoke c4handlers c4clock c4perms 0 1 []
     (fun j hj => absurd hj (Nat.not_lt_zero j)) (by decide) (by decide),
   claim_C4.1 c4invoke c4handlers c4clock c4perms 2 5 []⟩

theorem getD_set_ne {α : Type} (l : List α) (i j : Nat) (a d : α)
    (h : i ≠ j) : (l.set i a).getD j d = l.getD j d := by
  rw [List.getD_eq_getElem?_getD, List.getElem?_set_ne h,
    ← List.getD_eq_getElem?_getD]

theorem getD_set_self {α : Type} (l : List α) (i : Nat) (a d : α)
    (h : i < l.length) : (l.set i a).getD i d = a := by
  rw [List.getD_eq_getElem?_getD]
  simp [List.getElem?_set, h]

theorem getD_append_lt {α : Type} (l l2 : List α) (i : Nat) (d : α)
    (h : i < l.length) : (l ++ l2).getD i d = l.getD i d :=
  List.getD_append l l2 d i h

theorem getD_append_add {α : Type} (l l2 : List α) (i : Nat) (d : α) :
    (l ++ l2).getD (l.length + i) d = l2.getD i d := by
  rw [List.getD_eq_getElem?_getD, List.getElem?_append_right (by omega)]
  simp [List.getD_eq_getElem?_getD]

theorem range_map_getD {α : Type} (l : List α) (d : α) :
    (List.range l.length).map (fun i => l.getD i d) = l := by
  induction l with
  | nil => rfl
  | cons a t ih =>
      rw [List.length_cons, List.range_succ_eq_map, List.map_cons,
        List.map_map]
      have h2 : List.map ((fun i => (a :: t).getD i d) ∘ (· + 1))
          (List.range t.length) = t := by
        rw [show ((fun i => (a :: t).getD i d) ∘ (· + 1))
            = (fun i => t.getD i d) from rfl]
        exact ih
      rw [h2]
      rfl

theorem view_congr (st st2 : Store) (s s2 : Nat)
    (haddr : st2.addrs s2 = st.addrs s)
    (hmsg : ∀ a ∈ st.addrs s,
      st2.msgs.getD a defaultMsg = st.msgs.getD a defaultMsg) :
    st2.view s2 = st.view s := by
  unfold Store.view
  rw [haddr]
  exact List.map_congr_left hmsg

theorem addrs_extend_other (st : Store) (b : Nat) (m : Message) (a : Nat)
    (hne : b ≠ a) : (extend_session st b m).addrs a = st.addrs a := by
  unfold extend_session Store.addrs
  exact getD_set_ne _ _ _ _ _ hne

theorem addrs_extend_self (st : Store) (b : Nat) (m : Message)
    (hb : b < st.sessions.length) :
    (extend_session st b m).addrs b = st.addrs b ++ [st.msgs.length] := by
  unfold extend_session Store.addrs
  exact getD_set_self _ _ _ _ hb

theorem addrs_mutate (st : Store) (b i : Nat) (m : Message) (a : Nat) :
    (mutate_message st b i m).addrs a = st.addrs a := by
  unfold mutate_message
  cases h : (st.addrs b)[i]? <;> rfl

theorem separated_symm {st : Store} {a b : Nat} (h : Separated st a b) :
    Separated st b a := by
  obtain ⟨hne, ha, hb, hba, hbb, hdisj⟩ := h
  refine ⟨hne.symm, hb, ha, hbb, hba, ?_⟩
  intro x hx hxa
  exact hdisj x hxa hx

theorem apply_op_frame (st : Store) (a b : Nat) (hsep : Separated st a b)
    (op : SessionOp) :
    (apply_op st b op).view a = st.view a ∧ Separated (apply_op st b op) a b := by
  obtain ⟨hne, ha, hb, hba, hbb, hdisj⟩ := hsep
  cases op with
  | extend m =>
      simp only [apply_op]
      constructor
      · apply view_congr
        · exact addrs_extend_other st b m a (Ne.symm hne)
        · intro x hx
          exact getD_append_lt _ _ _ _ (hba x hx)
      · refine ⟨hne, ?_, ?_, ?_, ?_, ?_⟩
        · unfold extend_session
          simpa [List.length_set] using ha
        · unfold extend_session
          simpa [List.length_set] using hb
        · intro x hx
          rw [addrs_extend_other st b m a (Ne.symm hne)] at hx
          have := hba x hx
          unfold extend_session
          simp only [List.length_append, List.length_singleton]
          omega
        · intro x hx
          rw [addrs_extend_self st b m hb] at hx
          unfold extend_session
          simp only [List.length_append, List.length_singleton]
          rcases List.mem_append.mp hx with hx1 | hx1
          · have := hbb x hx1
            omega
          · rw [List.mem_singleton] at hx1
            omega
        · intro x hx
          rw [addrs_extend_other st b m a (Ne.symm hne)] at hx
          rw [addrs_extend_self st b m hb]
          rw [List.mem_append, List.mem_singleton]
          rintro (hx2 | hx2)
          · exact hdisj x hx hx2
          · have := hba x hx
            omega
  | mutate i m =>
      simp only [apply_op]
      constructor
      · apply view_congr
        · exact addrs_mutate st b i m a
        · intro x hx
          unfold mutate_message
          cases hcell : (st.addrs b)[i]? with
          | none => rfl
          | some a0 =>
              have ha0 : a0 ∈ st.addrs b := List.getElem?_mem hcell
              have hxa0 : x ≠ a0 := fun hxeq =>
                hdisj x hx (hxeq ▸ ha0)
              simp only []
              exact getD_set_ne _ _ _ _ _ (Ne.symm hxa0)
      · have haddra := addrs_mutate st b i m a
        have haddrb := addrs_mutate st b i m b
        have hmlen : (mutate_message st b i m).msgs.length = st.msgs.length := by
          unfold mutate_message
          cases hcell : (st.addrs b)[i]? with
          | none => rfl
          | some a0 => simp [List.length_set]
        have hslen : (mutate_message st b i m).sessions = st.sessions := by
          unfold mutate_message
          cases hcell : (st.addrs b)[i]? <;> rfl
        refine ⟨hne, ?_, ?_, ?_, ?_, ?_⟩
        · rw [hslen]; exact ha
        · rw [hslen]; exact hb
        · intro x hx
          rw [haddra] at hx
          rw [hmlen]
          exact hba x hx
        · intro x hx
          rw [haddrb] at hx
          rw [hmlen]
          exact hbb x hx
        · intro x hx
          rw [haddra] at hx
          rw [haddrb]
          exact hdisj x hx

theorem apply_ops_frame (a b : Nat) (ops : List SessionOp) :
    ∀ st : Store, Separated st a b →
      (apply_ops st b ops).view a = st.view a ∧
      Separated (apply_ops st b ops) a b := by
  induction ops with
  | nil => intro st hsep; exact ⟨rfl, hsep⟩
  | cons op rest ih =>
      intro st hsep
      have h1 := apply_op_frame st a b hsep op
      have h2 := ih (apply_op st b op) h1.2
      unfold apply_ops
      exact ⟨h2.1.trans h1.1, h2.2⟩

theorem getD_append_self {α : Type} (l : List α) (x : α) (d : α) :
    (l ++ [x]).getD l.length d = x := by
  have h := getD_append_add l [x] 0 d
  rw [Nat.add_zero] at h
  exact h

theorem fork_fst (st : Store) (s : Nat) :
    (fork_session st s).1
      = { sessions := st.sessions
            ++ [(List.range (st.addrs s).length).map (fun i => i + st.msgs.length)]
          msgs := st.msgs
            ++ (st.addrs s).map (fun a => st.msgs.getD a defaultMsg) } := rfl

theorem fork_snd (st : Store) (s : Nat) :
    (fork_session st s).2 = st.sessions.length := rfl

theorem fork_addrs_self (st : Store) (s : Nat) (hs : s < st.sessions.length) :
    (fork_session st s).1.addrs s = st.addrs s := by
  rw [fork_fst]
  unfold Store.addrs
  exact getD_append_lt _ _ _ _ hs

theorem fork_addrs_fork (st : Store) (s : Nat) :
    (fork_session st s).1.addrs (fork_session st s).2
      = (List.range (st.addrs s).length).map (fun i => i + st.msgs.length) := by
  rw [fork_fst, fork_snd]
  unfold Store.addrs
  exact getD_append_self _ _ _

theorem fork_view_orig (st : Store) (s : Nat) (hv : ValidSession st s) :
    (fork_session st s).1.view s = st.view s := by
  apply view_congr
  · exact fork_addrs_self st s hv.1
  · intro x hx
    rw [fork_fst]
    exact getD_append_lt _ _ _ _ (hv.2 x hx)

theorem fork_view_fork (st : Store) (s : Nat) :
    (fork_session st s).1.view (fork_session st s).2 = st.view s := by
  unfold Store.view
  rw [fork_addrs_fork, List.map_map]
  have hpt : ∀ i ∈ List.range (st.addrs s).length,
      ((fun a => (fork_session st s).1.msgs.getD a defaultMsg)
        ∘ (fun i => i + st.msgs.length)) i
        = (fun i => ((st.addrs s).map
            (fun a => st.msgs.getD a defaultMsg)).getD i defaultMsg) i := by
    intro i hi
    show (fork_session st s).1.msgs.getD (i + st.msgs.length) defaultMsg = _
    rw [fork_fst]
    show (st.msgs ++ _).getD (i + st.msgs.length) defaultMsg = _
    rw [show i + st.msgs.length = st.msgs.length + i from Nat.add_comm i _]
    exact getD_append_add _ _ _ _
  rw [List.map_congr_left hpt]
  rw [show (st.addrs s).length
      = ((st.addrs s).map (fun a => st.msgs.getD a defaultMsg)).length
    from (List.length_map _ _).symm]
  rw [range_map_getD]

theorem fork_separated (st : Store) (s : Nat) (hv : ValidSession st s) :
    Separated (fork_session st s).1 s (fork_session st s).2 := by
  obtain ⟨hs, hbound⟩ := hv
  refine ⟨?_, ?_, ?_, ?_, ?_, ?_⟩
  · rw [fork_snd]
    omega
  · rw [fork_fst]
    show s < (st.sessions ++ _).length
    rw [List.length_append]
    simp
    omega
  · rw [fork_fst, fork_snd]
    show st.sessions.length < (st.sessions ++ [_]).length
    rw [List.length_append]
    simp
  · intro x hx
    rw [fork_addrs_self st s hs] at hx
    rw [fork_fst]
    show x < (st.msgs ++ _).length
    rw [List.length_append]
    have := hbound x hx
    omega
  · intro x hx
    rw [fork_addrs_fork] at hx
    obtain ⟨i, hi, rfl⟩ := List.mem_map.mp hx
    rw [List.mem_range] at hi
    rw [fork_fst]
    show i + st.msgs.length < (st.msgs ++ _).length
    rw [List.length_append, List.length_map]
    omega
  · intro x hx
    rw [fork_addrs_self st s hs] at hx
    rw [fork_addrs_fork]
    intro hmem
    obtain ⟨i, hi, heq⟩ := List.mem_map.mp hmem
    have := hbound x hx
    omega

/-- Claim C9: `fork_session` (deep copy) yields a fully independent session:
its view equals the original's, the original is untouched, and any sequence
of subsequent appends or in-place message mutations applied through either
session leaves the other session's message sequence exactly as it was. -/
theorem claim_C9 (st : Store) (s : Nat) (hv : ValidSession st s) :
    (fork_session st s).1.view (fork_session st s).2 = st.view s ∧
    (fork_session st s).1.view s = st.view s ∧
    (∀ ops : List SessionOp,
      (apply_ops (fork_session st s).1 (fork_session st s).2 ops).view s
        = st.view s) ∧
    (∀ ops : List SessionOp,
      (apply_ops (fork_session st s).1 s ops).view (fork_session st s).2
        = st.view s) := by
  have hsep := fork_separated st s hv
  refine ⟨fork_view_fork st s, fork_view_orig st s hv, ?_, ?_⟩
  · intro ops
    have h := apply_ops_frame s (fork_session st s).2 ops
      (fork_session st s).1 hsep
    rw [h.1, fork_view_orig st s hv]
  · intro ops
    have h := apply_ops_frame (fork_session st s).2 s ops
      (fork_session st s).1 (separated_symm hsep)
    rw [h.1, fork_view_fork st s]

/-- Claim C9 witness: forking a two-message session, then appending to and
mutating the fork, leaves the original's view unchanged. -/
theorem claim_C9_witness :
    ValidSession ⟨[[0, 1]],
      [Message.system "sp" none, Message.user "up" none]⟩ 0 ∧
    (apply_ops (fork_session ⟨[[0, 1]],
        [Message.system "sp" none, Message.user "up" none]⟩ 0).1
      (fork_session ⟨[[0, 1]],
        [Message.system "sp" none, Message.user "up" none]⟩ 0).2
      [SessionOp.extend (Message.assistant "x" none),
       SessionOp.mutate 0 (Message.user "clobbered" none)]).view 0
      = Store.view ⟨[[0, 1]],
          [Message.system "sp" none, Message.user "up" none]⟩ 0 :=
  ⟨by decide,
   (claim_C9 ⟨[[0, 1]], [Message.system "sp" none, Message.user "up" none]⟩ 0
     (by decide)).2.2.1
     [SessionOp.extend (Message.assistant "x" none),
      SessionOp.mutate 0 (Message.user "clobbered" none)]⟩
